import Mathlib

/-!
# Verification of the xll_math dense-matrix engine (src/src/linalg.cpp)

A shallow embedding of the matrix computation engine.  The external
Excel `_FP12` array (rows, columns, row-major flat buffer of doubles) is
modelled as a structure over `ℚ` (exact arithmetic stands in for
double-precision arithmetic; "within tolerance" statements become exact
equalities).  Internal Eigen matrices are `Matrix (Fin m) (Fin n) ℚ`.

Each `xll_matrix_*` C function returning `_FP12*` becomes a Lean
function returning `Option FP12` (`none` = the `nullptr` failure
sentinel); scalar functions returning `double` become `Option ℚ`
(`none` = the quiet-NaN failure sentinel, NaN not being a rational
value).

The Eigen numerical kernels fall in two classes:
 -  kernels whose result is a rational function of the input entries
    (inverse, determinant, trace, LU solve) are modelled exactly over ℚ;
 -  kernels whose exact result is irrational for rational input
    (Householder QR, LLT Cholesky, Jacobi SVD) are taken as parameters
    of the orchestration code, so theorems about the surrounding
    dimension checks and result packing hold for every possible kernel
    output.
-/

/-- Model of the Excel `_FP12` array: row/column counts plus the flat
row-major data buffer.  The well-formed arrays crossing the boundary
satisfy `array.length = rows * columns`. -/
structure FP12 where
  rows : ℕ
  columns : ℕ
  array : List ℚ
deriving DecidableEq, Repr

/-- Row-major element access into an `FP12` buffer: element `(i, j)` is
`array[i * columns + j]` (out-of-range reads default to `0`; well-formed
inputs never reach the default). -/
def fpEntry (fp : FP12) (i j : ℕ) : ℚ :=
  fp.array.getD (i * fp.columns + j) 0

/-- Total version of a matrix entry lookup: `M i j` for in-range
indices, `0` out of range.  Used to build row-major buffers. -/
def matEntryD {m n : ℕ} (M : Matrix (Fin m) (Fin n) ℚ) (i j : ℕ) : ℚ :=
  if h : i < m ∧ j < n then M ⟨i, h.1⟩ ⟨j, h.2⟩ else 0

/-- Build an `r × c` `FP12` whose row-major buffer holds `f i j` at flat
index `i * c + j`: the model of writing an Eigen result into the static
`FPX` output slot. -/
def mkFP (r c : ℕ) (f : ℕ → ℕ → ℚ) : FP12 :=
  ⟨r, c, List.ofFn (fun t : Fin (r * c) => f ((t : ℕ) / c) ((t : ℕ) % c))⟩

/-- `xll::fp_to_eigen`: reinterpret the row-major flat buffer as a
matrix, `internal(i,j) = buffer[i*cols + j]`. -/
def fp_to_eigen (fp : FP12) : Matrix (Fin fp.rows) (Fin fp.columns) ℚ :=
  Matrix.of fun i j => fpEntry fp (i : ℕ) (j : ℕ)

/-- `xll::eigen_to_fp`: write a matrix back into the output slot in
row-major order. -/
def eigen_to_fp {m n : ℕ} (M : Matrix (Fin m) (Fin n) ℚ) : FP12 :=
  mkFP m n (matEntryD M)

/-- `xll::vector_to_fp`: write a length-`k` vector as a `(k, 1)` column
array. -/
def vector_to_fp {k : ℕ} (v : Fin k → ℚ) : FP12 :=
  ⟨k, 1, List.ofFn v⟩

/-- View an `FP12` as a square matrix on its `rows` count; this agrees
with `fp_to_eigen` whenever `rows = columns` (the square-only
operations read it only after that check). -/
def fpSquare (fp : FP12) : Matrix (Fin fp.rows) (Fin fp.rows) ℚ :=
  Matrix.of fun i j => fpEntry fp (i : ℕ) (j : ℕ)

/-- C `static_cast<int>` applied to a `double` dimension argument:
truncation toward zero, modelled on ℚ. -/
def castToInt (q : ℚ) : ℤ :=
  if 0 ≤ q then ⌊q⌋ else ⌈q⌉

/-- Exact-arithmetic model of the Eigen kernel call `A.inverse()`: the
inverse is a rational function of the entries, `det⁻¹ • adjugate`.  For
singular `A` the real kernel produces a meaningless (inf/NaN-filled)
matrix without failing; here `det⁻¹ = 0⁻¹ = 0` likewise yields a
meaningless matrix, and in both cases a matrix is produced. -/
def eigenInverse {n : ℕ} (A : Matrix (Fin n) (Fin n) ℚ) :
    Matrix (Fin n) (Fin n) ℚ :=
  A.det⁻¹ • A.adjugate

/-- `xll_matrix_inv` (MATRIX.INVERSE): non-square input returns the
`nullptr` sentinel, otherwise the kernel inverse is written out. -/
def xll_matrix_inv (pa : FP12) : Option FP12 :=
  if pa.rows = pa.columns then
    some (eigen_to_fp (eigenInverse (fpSquare pa)))
  else none

/-- Exact-arithmetic model of the Eigen kernel call `A.lu().solve(b)`
(partial-pivot LU): equal to the exact solution `A⁻¹ b` when `A` is
invertible; for singular `A` the real kernel still returns a
numerically meaningless matrix without failing, modelled here by the
junk value `0⁻¹ • adjugate * b`. -/
def luSolve {n p : ℕ} (A : Matrix (Fin n) (Fin n) ℚ)
    (b : Matrix (Fin n) (Fin p) ℚ) : Matrix (Fin n) (Fin p) ℚ :=
  eigenInverse A * b

/-- `xll_matrix_solve` (MATRIX.SOLVE): fails iff `A` is non-square or
`A.rows ≠ b.rows`; otherwise the LU solve result is written out. -/
def xll_matrix_solve (pa pb : FP12) : Option FP12 :=
  if pa.rows = pa.columns ∧ pa.rows = pb.rows then
    some (eigen_to_fp (luSolve (fpSquare pa)
      (Matrix.of fun (i : Fin pa.rows) (j : Fin pb.columns) =>
        fpEntry pb (i : ℕ) (j : ℕ))))
  else none

/-- `xll_matrix_trace` (MATRIX.TRACE): the quiet-NaN sentinel (`none`)
for non-square input, else the exact diagonal sum. -/
def xll_matrix_trace (pa : FP12) : Option ℚ :=
  if pa.rows = pa.columns then some (Matrix.trace (fpSquare pa)) else none

/-- `xll_matrix_det` (MATRIX.DETERMINANT): the quiet-NaN sentinel
(`none`) for non-square input, else the exact determinant (the Eigen
LU-based determinant is exact in exact arithmetic). -/
def xll_matrix_det (pa : FP12) : Option ℚ :=
  if pa.rows = pa.columns then some (fpSquare pa).det else none

/-- `xll_matrix_identity` (MATRIX.IDENTITY): dimension outside
`(0, 10000]` after truncation returns the sentinel, else the identity
matrix. -/
def xll_matrix_identity (n : ℚ) : Option FP12 :=
  let dim : ℤ := castToInt n
  if dim ≤ 0 ∨ 10000 < dim then none
  else some (eigen_to_fp (1 : Matrix (Fin dim.toNat) (Fin dim.toNat) ℚ))

/-- `xll_matrix_zeros` (MATRIX.ZEROS): either truncated dimension
outside `(0, 10000]` returns the sentinel, else the all-zero matrix. -/
def xll_matrix_zeros (m n : ℚ) : Option FP12 :=
  let r : ℤ := castToInt m
  let c : ℤ := castToInt n
  if r ≤ 0 ∨ c ≤ 0 ∨ 10000 < r ∨ 10000 < c then none
  else some (eigen_to_fp (0 : Matrix (Fin r.toNat) (Fin c.toNat) ℚ))

/-- `xll_matrix_diag` (MATRIX.DIAG): a single-column input builds the
diagonal matrix from that column (`v.asDiagonal()`); any other input
extracts the main diagonal (`A.diagonal()`, length `min rows cols`) as
a column vector. -/
def xll_matrix_diag (pa : FP12) : Option FP12 :=
  if pa.columns = 1 then
    some (eigen_to_fp (Matrix.diagonal
      (fun i : Fin pa.rows => fpEntry pa (i : ℕ) 0)))
  else
    some (vector_to_fp (fun i : Fin (min pa.rows pa.columns) =>
      fpEntry pa (i : ℕ) (i : ℕ)))

/-- The Householder QR kernel (`HouseholderQR`, external Eigen code) as
a parameter: from an `m × n` matrix it produces the packed `m × n`
factor storage `matrixQR()` (R on and above the diagonal, Householder
vectors below).  Its entries are irrational for rational input, so the
orchestration theorems quantify over every possible kernel. -/
def QRKernel : Type :=
  (m n : ℕ) → Matrix (Fin m) (Fin n) ℚ → Matrix (Fin m) (Fin n) ℚ

/-- `triangularView<Upper>`: keep entries on or above the main
diagonal, zero strictly below. -/
def upperTriangularPart {m n : ℕ} (M : Matrix (Fin m) (Fin n) ℚ) :
    Matrix (Fin m) (Fin n) ℚ :=
  Matrix.of fun i j => if (i : ℕ) ≤ (j : ℕ) then M i j else 0

/-- `xll_matrix_qr` (MATRIX.QR): no dimension check; returns the upper
triangular part of the kernel's packed QR storage. -/
def xll_matrix_qr (K : QRKernel) (pa : FP12) : Option FP12 :=
  some (eigen_to_fp (upperTriangularPart
    (K pa.rows pa.columns (fp_to_eigen pa))))

/-- The LLT Cholesky kernel (`LLT`, external Eigen code) as a
parameter: `none` models `llt.info() != Success` (the factorization's
internal success check failing on a non-positive-definite input),
`some L` models a successful factorization with factor `matrixL()`.
The factor involves square roots, hence is irrational for rational
input, so the orchestration theorems quantify over every kernel. -/
def LLTKernel : Type :=
  (n : ℕ) → Matrix (Fin n) (Fin n) ℚ → Option (Matrix (Fin n) (Fin n) ℚ)

/-- `xll_matrix_cholesky` (MATRIX.CHOLESKY): non-square input returns
the sentinel; a kernel non-success report returns the sentinel; a
successful factor is written out. -/
def xll_matrix_cholesky (K : LLTKernel) (pa : FP12) : Option FP12 :=
  if pa.rows = pa.columns then
    match K pa.rows (fpSquare pa) with
    | none => none
    | some L => some (eigen_to_fp L)
  else none

/-- The thin Jacobi SVD kernel (`JacobiSVD` with thin U and V, external
Eigen code) as a parameter: from an `m × n` matrix it produces
`(matrixU, singularValues, matrixV)` with `U : m × k`, `σ : k`,
`V : n × k`, `k = min m n`.  Singular values are irrational for
rational input, so the orchestration theorems quantify over every
kernel. -/
def SVDKernel : Type :=
  (m n : ℕ) → Matrix (Fin m) (Fin n) ℚ →
    Matrix (Fin m) (Fin (min m n)) ℚ × (Fin (min m n) → ℚ) ×
      Matrix (Fin n) (Fin (min m n)) ℚ

/-- Total version of a vector entry lookup: `s t` for `t < k`, `0` out
of range. -/
def vecEntryD {k : ℕ} (s : Fin k → ℚ) (t : ℕ) : ℚ :=
  if h : t < k then s ⟨t, h⟩ else 0

/-- Entry `(i, j)` of the stacked full-SVD output block matrix: the
three copy loops of `xll_matrix_svd_full` write `U` into rows `[0, m)`,
the diagonal `k × k` block `Σ` into rows `[m, m+k)` and `Vᵗ` into rows
`[m+k, m+2k)`, over a zero-initialized buffer; the blocks are disjoint,
so the result is this case split (`u`, `s`, `v` are the totalized
entry functions of `U`, the singular values, and `Vᵗ`). -/
def svdFullEntry (m n k : ℕ) (u : ℕ → ℕ → ℚ) (s : ℕ → ℚ)
    (v : ℕ → ℕ → ℚ) (i j : ℕ) : ℚ :=
  if i < m ∧ j < k then u i j
  else if m ≤ i ∧ i < m + k ∧ j < k then
    (if i - m = j then s (i - m) else 0)
  else if m + k ≤ i ∧ i < m + k + k ∧ j < n then v (i - (m + k)) j
  else 0

/-- `xll_matrix_svd_full` (MATRIX.SVD_FULL): always succeeds; stacks
`U`, the diagonal `Σ` block and `Vᵗ` vertically into one zero-padded
`(m + k + k) × max (max m n) k` buffer, `k = min m n`. -/
def xll_matrix_svd_full (K : SVDKernel) (pa : FP12) : Option FP12 :=
  let m := pa.rows
  let n := pa.columns
  let R := K m n (fp_to_eigen pa)
  let k := min m n
  let maxCols := max (max m n) k
  some (mkFP (m + k + k) maxCols
    (svdFullEntry m n k (matEntryD R.1) (vecEntryD R.2.1)
      (matEntryD R.2.2.transpose)))

/-- IEEE double-precision machine epsilon, `2⁻⁵²`, as an exact
rational (`std::numeric_limits<double>::epsilon()`). -/
def machineEps : ℚ := 1 / 2 ^ 52

/-- `vec.array().abs().maxCoeff()`: the largest absolute value of the
entries.  The `0` fold base never exceeds an absolute value, so for a
nonempty vector (Eigen requires nonemptiness) this is the true
maximum. -/
def maxAbs {k : ℕ} (v : Fin k → ℚ) : ℚ :=
  ((List.finRange k).map (fun i => |v i|)).foldr max 0

/-- The pseudoinverse cutoff
`ε · max(rows, cols) · max |singular value|`. -/
def pinvTolerance (m n : ℕ) {k : ℕ} (s : Fin k → ℚ) : ℚ :=
  machineEps * (max m n : ℚ) * maxAbs s

/-- The inverted singular values of `xll_matrix_pinv`: the loop inverts
`σᵢ` when `σᵢ > tolerance` and writes `0` otherwise. -/
def pinvInvertedSV {k : ℕ} (tol : ℚ) (s : Fin k → ℚ) : Fin k → ℚ :=
  fun i => if tol < s i then (s i)⁻¹ else 0

/-- `xll_matrix_pinv` (MATRIX.PSEUDO_INV): always succeeds; returns
`V · Σ⁺ · Uᵗ` with the tolerance-thresholded reciprocal singular
values (`adjoint = transpose` over the reals). -/
def xll_matrix_pinv (K : SVDKernel) (pa : FP12) : Option FP12 :=
  let m := pa.rows
  let n := pa.columns
  let R := K m n (fp_to_eigen pa)
  let tol := pinvTolerance m n R.2.1
  some (eigen_to_fp (R.2.2 * Matrix.diagonal (pinvInvertedSV tol R.2.1) *
    R.1.transpose))

/-- Lower-triangularity of a square matrix: every entry strictly above
the main diagonal is zero. -/
def lowerTriangular {n : ℕ} (L : Matrix (Fin n) (Fin n) ℚ) : Prop :=
  ∀ i j : Fin n, (i : ℕ) < (j : ℕ) → L i j = 0

/-- The inverted-singular-value rule as the spec sentence states it
("each singular value below the tolerance is inverted to zero, every
other singular value is replaced by its reciprocal"): zero for
`σᵢ < tolerance`, reciprocal otherwise. -/
def pinvInvertedSVClaim {k : ℕ} (tol : ℚ) (s : Fin k → ℚ) : Fin k → ℚ :=
  fun i => if s i < tol then 0 else (s i)⁻¹

/-- The inverted-singular-value rule the code implements, as amended
wording: zero for `σᵢ` at or below the tolerance, reciprocal only for
`σᵢ` strictly above it. -/
def pinvInvertedSVAmended {k : ℕ} (tol : ℚ) (s : Fin k → ℚ) : Fin k → ℚ :=
  fun i => if s i ≤ tol then 0 else (s i)⁻¹

/-- An SVD kernel used at the pseudoinverse counterexample input, which
there agrees with the true SVD: on a diagonal matrix whose diagonal is
nonnegative and non-increasing, `U = I`, `σ = the diagonal`, `V = I`. -/
def svdKernelDiag : SVDKernel :=
  fun m n A =>
    (Matrix.of fun i j => if (i : ℕ) = (j : ℕ) then 1 else 0,
     fun i => A ⟨(i : ℕ), lt_of_lt_of_le i.isLt (min_le_left m n)⟩
                ⟨(i : ℕ), lt_of_lt_of_le i.isLt (min_le_right m n)⟩,
     Matrix.of fun i j => if (i : ℕ) = (j : ℕ) then 1 else 0)

/-- The pseudoinverse counterexample input: the diagonal matrix
diag(1, 2⁻⁵¹), on which the second singular value 2⁻⁵¹ is exactly equal
to the tolerance ε · max(2, 2) · 1 = 2⁻⁵² · 2. -/
def pinvCexInput : FP12 :=
  ⟨2, 2, [1, 0, 0, 1 / 2 ^ 51]⟩

/-!
## Theorems
-/

theorem row_major_index_lt {r c i j : ℕ} (hi : i < r) (hj : j < c) :
    i * c + j < r * c := by
  have hstep : (i + 1) * c ≤ r * c := Nat.mul_le_mul_right c hi
  have hexp : (i + 1) * c = i * c + c := by ring
  omega

theorem fpEntry_mkFP (r c : ℕ) (f : ℕ → ℕ → ℚ) {i j : ℕ}
    (hi : i < r) (hj : j < c) : fpEntry (mkFP r c f) i j = f i j := by
  have hc : 0 < c := Nat.pos_of_ne_zero (by rintro rfl; exact Nat.not_lt_zero j hj)
  have hlt : i * c + j < r * c := row_major_index_lt hi hj
  have hlen : i * c + j < (List.ofFn
      (fun t : Fin (r * c) => f ((t : ℕ) / c) ((t : ℕ) % c))).length := by
    simpa using hlt
  have hdiv : (i * c + j) / c = i := by
    rw [Nat.mul_comm i c, Nat.mul_add_div hc, Nat.div_eq_of_lt hj, Nat.add_zero]
  have hmod : (i * c + j) % c = j := by
    rw [Nat.mul_comm i c, Nat.mul_add_mod, Nat.mod_eq_of_lt hj]
  unfold fpEntry mkFP
  rw [List.getD_eq_getElem?_getD, List.getElem?_eq_getElem hlen,
    Option.getD_some, List.getElem_ofFn]
  simp [hdiv, hmod]

theorem fpEntry_eigen_to_fp {m n : ℕ} (M : Matrix (Fin m) (Fin n) ℚ)
    {i j : ℕ} (hi : i < m) (hj : j < n) :
    fpEntry (eigen_to_fp M) i j = M ⟨i, hi⟩ ⟨j, hj⟩ := by
  rw [eigen_to_fp, fpEntry_mkFP m n _ hi hj, matEntryD]
  simp [hi, hj]

theorem fp_to_eigen_eigen_to_fp {m n : ℕ} (M : Matrix (Fin m) (Fin n) ℚ) :
    fp_to_eigen (eigen_to_fp M) = M := by
  ext i j
  show fpEntry (eigen_to_fp M) (i : ℕ) (j : ℕ) = M i j
  rw [fpEntry_eigen_to_fp M i.isLt j.isLt]
  rfl

theorem fpEntry_vector_to_fp {k : ℕ} (v : Fin k → ℚ) {i : ℕ} (hi : i < k) :
    fpEntry (vector_to_fp v) i 0 = v ⟨i, hi⟩ := by
  have hlen : i < (List.ofFn v).length := by simpa using hi
  unfold fpEntry vector_to_fp
  rw [show i * 1 + 0 = i by ring, List.getD_eq_getElem?_getD,
    List.getElem?_eq_getElem hlen, Option.getD_some, List.getElem_ofFn]

/-- C2: converting a matrix through the external flat array and back
(`to_internal (from_internal M)`) yields the same matrix
element-for-element, and on a well-formed external array the internal
matrix reads `buffer[i*cols + j]` at `(i, j)`. -/
theorem adapter_round_trip_spec :
    (∀ (m n : ℕ) (M : Matrix (Fin m) (Fin n) ℚ),
      fp_to_eigen (eigen_to_fp M) = M) ∧
    (∀ (fp : FP12) (i j : ℕ) (hlen : fp.array.length = fp.rows * fp.columns)
      (hi : i < fp.rows) (hj : j < fp.columns),
      fp_to_eigen fp ⟨i, hi⟩ ⟨j, hj⟩ =
        fp.array.get ⟨i * fp.columns + j, by
          rw [hlen]; exact row_major_index_lt hi hj⟩) := by
  constructor
  · exact fun m n M => fp_to_eigen_eigen_to_fp M
  · intro fp i j hlen hi hj
    show fpEntry fp i j = _
    have hidx : i * fp.columns + j < fp.array.length := by
      rw [hlen]; exact row_major_index_lt hi hj
    unfold fpEntry
    rw [List.getD_eq_getElem?_getD, List.getElem?_eq_getElem hidx,
      Option.getD_some, List.get_eq_getElem]

/-- C2 witness: at the concrete 2 × 2 array [1, 2, 3, 4], entry (1, 0)
is buffer element 1 * 2 + 0 = 2. -/
theorem adapter_round_trip_spec_witness :
    fp_to_eigen (⟨2, 2, [1, 2, 3, 4]⟩ : FP12) ⟨1, by decide⟩ ⟨0, by decide⟩ =
      ([1, 2, 3, 4] : List ℚ).get ⟨2, by decide⟩ :=
  adapter_round_trip_spec.2 ⟨2, 2, [1, 2, 3, 4]⟩ 1 0 rfl (by decide) (by decide)

/-- C9: trace and determinant signal failure solely through the scalar
NaN sentinel (modelled as `none`), exactly on non-square input, and
return the exact trace (diagonal sum) and determinant on every square
input. -/
theorem trace_det_sentinel_spec (pa : FP12) :
    (xll_matrix_trace pa = none ↔ pa.rows ≠ pa.columns) ∧
    (pa.rows = pa.columns →
      xll_matrix_trace pa =
        some (∑ i : Fin pa.rows, fpEntry pa (i : ℕ) (i : ℕ))) ∧
    (xll_matrix_det pa = none ↔ pa.rows ≠ pa.columns) ∧
    (pa.rows = pa.columns → xll_matrix_det pa = some (fpSquare pa).det) := by
  refine ⟨?_, ?_, ?_, ?_⟩
  · unfold xll_matrix_trace
    by_cases h : pa.rows = pa.columns <;> simp [h]
  · intro h
    unfold xll_matrix_trace
    rw [if_pos h]
    rfl
  · unfold xll_matrix_det
    by_cases h : pa.rows = pa.columns <;> simp [h]
  · intro h
    unfold xll_matrix_det
    rw [if_pos h]

/-- C9 witness: trace of [[1, 2], [3, 4]] is the exact 5; the 1 × 2
input gets the NaN sentinel from the determinant. -/
theorem trace_det_sentinel_spec_witness :
    xll_matrix_trace ⟨2, 2, [1, 2, 3, 4]⟩ = some 5 ∧
    xll_matrix_det ⟨1, 2, [1, 2]⟩ = none := by
  constructor
  · rw [(trace_det_sentinel_spec ⟨2, 2, [1, 2, 3, 4]⟩).2.1 rfl]
    rw [show ((⟨2, 2, [1, 2, 3, 4]⟩ : FP12)).rows = 2 from rfl, Fin.sum_univ_two]
    norm_num [fpEntry, List.getD]
  · exact (trace_det_sentinel_spec ⟨1, 2, [1, 2]⟩).2.2.1.mpr (by decide)

/-- C3: solve fails (returns the null-array sentinel) iff `A` is
non-square or `A.rows ≠ b.rows`; every square input with matching
right-hand side, singular `A` included, still yields a result matrix
(there is no singularity check beyond the factorization itself). -/
theorem solve_failure_iff_spec (pa pb : FP12) :
    (xll_matrix_solve pa pb = none ↔
      ¬(pa.rows = pa.columns ∧ pa.rows = pb.rows)) ∧
    (pa.rows = pa.columns → pa.rows = pb.rows →
      ∃ r, xll_matrix_solve pa pb = some r) := by
  unfold xll_matrix_solve
  constructor
  · by_cases h : pa.rows = pa.columns ∧ pa.rows = pb.rows <;> simp [h]
  · intro h1 h2
    rw [if_pos ⟨h1, h2⟩]
    exact ⟨_, rfl⟩

/-- C3 witness: the singular 2 × 2 zero system still returns a result;
the `solve(3×3, 4×1)` shape mismatch returns the sentinel. -/
theorem solve_failure_iff_spec_witness :
    (∃ r, xll_matrix_solve ⟨2, 2, [0, 0, 0, 0]⟩ ⟨2, 1, [1, 2]⟩ = some r) ∧
    xll_matrix_solve ⟨3, 3, [0, 0, 0, 0, 0, 0, 0, 0, 0]⟩
      ⟨4, 1, [1, 2, 3, 4]⟩ = none := by
  constructor
  · exact (solve_failure_iff_spec ⟨2, 2, [0, 0, 0, 0]⟩ ⟨2, 1, [1, 2]⟩).2 rfl rfl
  · exact (solve_failure_iff_spec ⟨3, 3, [0, 0, 0, 0, 0, 0, 0, 0, 0]⟩
      ⟨4, 1, [1, 2, 3, 4]⟩).1.mpr (by decide)

/-- C1 counterexample: the 1 × 1 zero matrix is square and singular
(determinant 0), yet the inverse operation returns a matrix result
rather than the claimed failure sentinel — there is no singularity
check in the code. -/
theorem inv_singular_not_sentinel_cex :
    (fpSquare ⟨1, 1, [0]⟩).det = 0 ∧ xll_matrix_inv ⟨1, 1, [0]⟩ ≠ none := by
  constructor
  · rw [Matrix.det_fin_one]
    rfl
  · unfold xll_matrix_inv
    simp

theorem mul_eigenInverse {n : ℕ} (A : Matrix (Fin n) (Fin n) ℚ)
    (h : A.det ≠ 0) : A * eigenInverse A = 1 := by
  unfold eigenInverse
  rw [Matrix.mul_smul, Matrix.mul_adjugate, smul_smul,
    inv_mul_cancel₀ h, one_smul]

/-- C1 amended: the inverse operation returns the failure sentinel
exactly for non-square input; every square input (singular included)
yields a matrix result, and when `A` is invertible the returned result
`R` is `n × n` and satisfies `mul(A, R) = I` exactly (entrywise at the
external-array level). -/
theorem inv_spec_amended (pa : FP12) :
    (xll_matrix_inv pa = none ↔ pa.rows ≠ pa.columns) ∧
    (pa.rows = pa.columns →
      xll_matrix_inv pa = some (eigen_to_fp (eigenInverse (fpSquare pa)))) ∧
    (∀ R, xll_matrix_inv pa = some R → (fpSquare pa).det ≠ 0 →
      R.rows = pa.rows ∧ R.columns = pa.rows ∧
      ∀ i j : Fin pa.rows,
        (∑ t : Fin pa.rows,
          fpEntry pa (i : ℕ) (t : ℕ) * fpEntry R (t : ℕ) (j : ℕ)) =
          if i = j then 1 else 0) := by
  refine ⟨?_, ?_, ?_⟩
  · unfold xll_matrix_inv
    by_cases h : pa.rows = pa.columns <;> simp [h]
  · intro h
    unfold xll_matrix_inv
    rw [if_pos h]
  · intro R hR hdet
    unfold xll_matrix_inv at hR
    by_cases h : pa.rows = pa.columns
    · rw [if_pos h] at hR
      obtain rfl : R = eigen_to_fp (eigenInverse (fpSquare pa)) :=
        (Option.some.inj hR).symm
      refine ⟨rfl, rfl, ?_⟩
      intro i j
      have hone : (fpSquare pa * eigenInverse (fpSquare pa)) i j =
          if i = j then 1 else 0 := by
        rw [mul_eigenInverse (fpSquare pa) hdet, Matrix.one_apply]
      rw [← hone, Matrix.mul_apply]
      apply Finset.sum_congr rfl
      intro t _
      rw [fpEntry_eigen_to_fp (eigenInverse (fpSquare pa)) t.isLt j.isLt]
      rfl
    · rw [if_neg h] at hR
      exact absurd hR (by simp)

/-- C1 witness: for the invertible 1 × 1 matrix [2], the returned
inverse multiplies back to the 1 × 1 identity. -/
theorem inv_spec_amended_witness :
    (∑ t : Fin 1, fpEntry ⟨1, 1, [2]⟩ 0 (t : ℕ) *
      fpEntry (eigen_to_fp (eigenInverse (fpSquare ⟨1, 1, [2]⟩))) (t : ℕ) 0) = 1 := by
  have hdet : (fpSquare (⟨1, 1, [2]⟩ : FP12)).det ≠ 0 := by
    rw [Matrix.det_fin_one]
    decide
  have h := (inv_spec_amended ⟨1, 1, [2]⟩).2.2
    (eigen_to_fp (eigenInverse (fpSquare ⟨1, 1, [2]⟩)))
    ((inv_spec_amended ⟨1, 1, [2]⟩).2.1 rfl) hdet
  simpa using h.2.2 0 0

/-- C7: a single-column input (the ambiguous 1 × 1 case included)
builds the n × n diagonal matrix with that column on the diagonal; an
input with more than one column extracts the main diagonal as a column
vector. -/
theorem diag_convention_spec (pa : FP12) :
    (pa.columns = 1 →
      ∃ r, xll_matrix_diag pa = some r ∧ r.rows = pa.rows ∧
        r.columns = pa.rows ∧
        ∀ i j : ℕ, ∀ hi : i < pa.rows, ∀ hj : j < pa.rows,
          fpEntry r i j = if i = j then fpEntry pa i 0 else 0) ∧
    (1 < pa.columns →
      ∃ r, xll_matrix_diag pa = some r ∧
        r.rows = min pa.rows pa.columns ∧ r.columns = 1 ∧
        ∀ i : ℕ, i < min pa.rows pa.columns →
          fpEntry r i 0 = fpEntry pa i i) := by
  constructor
  · intro h
    unfold xll_matrix_diag
    rw [if_pos h]
    refine ⟨_, rfl, rfl, rfl, ?_⟩
    intro i j hi hj
    rw [fpEntry_eigen_to_fp _ hi hj, Matrix.diagonal_apply]
    by_cases hij : i = j
    · subst hij
      simp
    · rw [if_neg (by simp [Fin.mk.injEq, hij]), if_neg hij]
  · intro h
    have h1 : pa.columns ≠ 1 := by omega
    unfold xll_matrix_diag
    rw [if_neg h1]
    refine ⟨_, rfl, rfl, rfl, ?_⟩
    intro i hi
    rw [fpEntry_vector_to_fp _ hi]

/-- C7 witness: diag of the column [5, 7] builds the 2 × 2 diagonal
matrix; diag of a 2 × 2 matrix extracts its diagonal column. -/
theorem diag_convention_spec_witness :
    (∃ r, xll_matrix_diag ⟨2, 1, [5, 7]⟩ = some r ∧ r.rows = 2 ∧
      r.columns = 2 ∧
      ∀ i j : ℕ, ∀ hi : i < 2, ∀ hj : j < 2,
        fpEntry r i j = if i = j then fpEntry ⟨2, 1, [5, 7]⟩ i 0 else 0) ∧
    (∃ r, xll_matrix_diag ⟨2, 2, [1, 2, 3, 4]⟩ = some r ∧ r.rows = 2 ∧
      r.columns = 1 ∧
      ∀ i : ℕ, i < 2 → fpEntry r i 0 = fpEntry ⟨2, 2, [1, 2, 3, 4]⟩ i i) :=
  ⟨(diag_convention_spec ⟨2, 1, [5, 7]⟩).1 rfl,
   (diag_convention_spec ⟨2, 2, [1, 2, 3, 4]⟩).2 (by norm_num)⟩

/-- C8: identity and zeros fail via the null-array sentinel exactly
when a truncated dimension falls outside (0, 10000]; otherwise
identity(n) is the n × n matrix with 1 on the diagonal and 0 elsewhere,
and zeros(m, n) is the all-zero m × n matrix. -/
theorem generators_bound_spec (q r c : ℚ) :
    (xll_matrix_identity q = none ↔
      castToInt q ≤ 0 ∨ 10000 < castToInt q) ∧
    (¬(castToInt q ≤ 0 ∨ 10000 < castToInt q) →
      ∃ fpI, xll_matrix_identity q = some fpI ∧
        fpI.rows = (castToInt q).toNat ∧
        fpI.columns = (castToInt q).toNat ∧
        ∀ i j : ℕ, i < fpI.rows → j < fpI.columns →
          fpEntry fpI i j = if i = j then 1 else 0) ∧
    (xll_matrix_zeros r c = none ↔
      castToInt r ≤ 0 ∨ castToInt c ≤ 0 ∨
        10000 < castToInt r ∨ 10000 < castToInt c) ∧
    (¬(castToInt r ≤ 0 ∨ castToInt c ≤ 0 ∨
        10000 < castToInt r ∨ 10000 < castToInt c) →
      ∃ fpZ, xll_matrix_zeros r c = some fpZ ∧
        fpZ.rows = (castToInt r).toNat ∧
        fpZ.columns = (castToInt c).toNat ∧
        ∀ i j : ℕ, i < fpZ.rows → j < fpZ.columns →
          fpEntry fpZ i j = 0) := by
  refine ⟨?_, ?_, ?_, ?_⟩
  · unfold xll_matrix_identity
    by_cases h : castToInt q ≤ 0 ∨ 10000 < castToInt q <;> simp [h]
  · intro h
    unfold xll_matrix_identity
    rw [if_neg h]
    refine ⟨_, rfl, rfl, rfl, ?_⟩
    intro i j hi hj
    rw [fpEntry_eigen_to_fp _ hi hj, Matrix.one_apply]
    by_cases hij : i = j
    · subst hij
      simp
    · rw [if_neg (by simp [Fin.mk.injEq, hij]), if_neg hij]
  · unfold xll_matrix_zeros
    by_cases h : castToInt r ≤ 0 ∨ castToInt c ≤ 0 ∨
        10000 < castToInt r ∨ 10000 < castToInt c <;> simp [h]
  · intro h
    unfold xll_matrix_zeros
    rw [if_neg h]
    refine ⟨_, rfl, rfl, rfl, ?_⟩
    intro i j hi hj
    rw [fpEntry_eigen_to_fp _ hi hj]
    rfl

/-- C8 witness: identity(0), identity(10001) and zeros(0, 5) all fail;
identity(3) is the 3 × 3 matrix with 1 on the diagonal. -/
theorem generators_bound_spec_witness :
    xll_matrix_identity 0 = none ∧ xll_matrix_identity 10001 = none ∧
    xll_matrix_zeros 0 5 = none ∧
    ∃ fpI, xll_matrix_identity 3 = some fpI ∧ fpI.rows = 3 ∧
      fpI.columns = 3 ∧
      ∀ i j : ℕ, i < fpI.rows → j < fpI.columns →
        fpEntry fpI i j = if i = j then 1 else 0 := by
  have h0 : castToInt 0 = 0 := by norm_num [castToInt]
  have h1 : castToInt 10001 = 10001 := by norm_num [castToInt]
  have h3 : castToInt 3 = 3 := by norm_num [castToInt]
  have h5 : castToInt 5 = 5 := by norm_num [castToInt]
  refine ⟨?_, ?_, ?_, ?_⟩
  · exact (generators_bound_spec 0 0 5).1.mpr (by rw [h0]; left; norm_num)
  · exact (generators_bound_spec 10001 0 5).1.mpr (by rw [h1]; right; norm_num)
  · exact (generators_bound_spec 3 0 5).2.2.1.mpr (by rw [h0]; left; norm_num)
  · obtain ⟨fpI, ha, hb, hc, hd⟩ :=
      (generators_bound_spec 3 0 5).2.1 (by rw [h3]; norm_num)
    exact ⟨fpI, ha, by rw [hb, h3]; rfl, by rw [hc, h3]; rfl, hd⟩

/-- C10: QR performs no dimension check: every m × n input yields a
result of the same shape m × n equal to the upper-triangular part of
the kernel's Householder QR factor storage, every entry strictly below
the main diagonal being zero. -/
theorem qr_shape_spec (K : QRKernel) (pa : FP12) :
    ∃ r, xll_matrix_qr K pa = some r ∧ r.rows = pa.rows ∧
      r.columns = pa.columns ∧
      ∀ i j : ℕ, ∀ hi : i < pa.rows, ∀ hj : j < pa.columns,
        fpEntry r i j =
          if i ≤ j then
            K pa.rows pa.columns (fp_to_eigen pa) ⟨i, hi⟩ ⟨j, hj⟩
          else 0 := by
  refine ⟨_, rfl, rfl, rfl, ?_⟩
  intro i j hi hj
  rw [fpEntry_eigen_to_fp _ hi hj]
  rfl

/-- C10 witness: instantiated with a concrete kernel and the concrete
2 × 2 input [1, 2, 3, 4]. -/
theorem qr_shape_spec_witness :
    ∃ r, xll_matrix_qr (fun _ _ A => A) ⟨2, 2, [1, 2, 3, 4]⟩ = some r ∧
      r.rows = 2 ∧ r.columns = 2 ∧
      ∀ i j : ℕ, ∀ hi : i < 2, ∀ hj : j < 2,
        fpEntry r i j =
          if i ≤ j then fp_to_eigen ⟨2, 2, [1, 2, 3, 4]⟩ ⟨i, hi⟩ ⟨j, hj⟩
          else 0 :=
  qr_shape_spec (fun _ _ A => A) ⟨2, 2, [1, 2, 3, 4]⟩

/-- C4: Cholesky returns the failure sentinel on every non-square
input, and on every square input where the factorization kernel's
internal success check reports non-success (not positive-definite) —
a failure distinct from and additional to the shape check; when the
(external) kernel succeeds with a valid factorization, as it does on
every symmetric positive-definite input, the operation returns exactly
that lower-triangular factor L, which reconstructs A as L·Lᵀ. -/
theorem cholesky_spec (K : LLTKernel) (pa : FP12) :
    (pa.rows ≠ pa.columns → xll_matrix_cholesky K pa = none) ∧
    (pa.rows = pa.columns → K pa.rows (fpSquare pa) = none →
      xll_matrix_cholesky K pa = none) ∧
    (∀ L, pa.rows = pa.columns → K pa.rows (fpSquare pa) = some L →
      lowerTriangular L → L * L.transpose = fpSquare pa →
      xll_matrix_cholesky K pa = some (eigen_to_fp L) ∧
      fp_to_eigen (eigen_to_fp L) = L ∧
      lowerTriangular L ∧ L * L.transpose = fpSquare pa) := by
  refine ⟨?_, ?_, ?_⟩
  · intro h
    unfold xll_matrix_cholesky
    rw [if_neg h]
  · intro h hK
    unfold xll_matrix_cholesky
    rw [if_pos h, hK]
  · intro L h hK hlow hrec
    unfold xll_matrix_cholesky
    rw [if_pos h, hK]
    exact ⟨rfl, fp_to_eigen_eigen_to_fp L, hlow, hrec⟩

/-- C4 witness: a kernel succeeding with the factor L = I on the 1 × 1
input [1] (a symmetric positive-definite matrix with I·Iᵗ = A); the
operation returns exactly that factor. -/
theorem cholesky_spec_witness :
    xll_matrix_cholesky (fun _ _ => some 1) ⟨1, 1, [1]⟩ =
      some (eigen_to_fp (1 : Matrix (Fin 1) (Fin 1) ℚ)) := by
  have hrec : (1 : Matrix (Fin 1) (Fin 1) ℚ) * (1 : Matrix (Fin 1) (Fin 1) ℚ).transpose =
      fpSquare ⟨1, 1, [1]⟩ := by
    ext i j
    fin_cases i
    fin_cases j
    simp [Matrix.mul_apply, fpSquare, fpEntry, Matrix.one_apply]
  have hlow : lowerTriangular (1 : Matrix (Fin 1) (Fin 1) ℚ) := by
    intro i j hij
    omega
  exact ((cholesky_spec (fun _ _ => some 1) ⟨1, 1, [1]⟩).2.2 1 rfl rfl hlow hrec).1

/-- C6: for every m × n input and every possible SVD kernel output,
the full-SVD operation succeeds and returns a single zero-padded
matrix of shape (m + 2k) × max(m, n, k) with k = min(m, n): U occupies
rows [0, m), the diagonal k × k block Σ occupies rows [m, m+k), Vᵗ
occupies rows [m+k, m+2k), each block left-aligned, and every entry
outside the blocks is zero. -/
theorem svd_full_spec (K : SVDKernel) (pa : FP12) :
    ∃ r, xll_matrix_svd_full K pa = some r ∧
      r.rows = pa.rows + 2 * min pa.rows pa.columns ∧
      r.columns = max (max pa.rows pa.columns) (min pa.rows pa.columns) ∧
      (∀ i j : ℕ, ∀ hi : i < pa.rows, ∀ hj : j < min pa.rows pa.columns,
        fpEntry r i j =
          (K pa.rows pa.columns (fp_to_eigen pa)).1 ⟨i, hi⟩ ⟨j, hj⟩) ∧
      (∀ i j : ℕ, ∀ hi : i < min pa.rows pa.columns,
        j < min pa.rows pa.columns →
        fpEntry r (pa.rows + i) j =
          if i = j then (K pa.rows pa.columns (fp_to_eigen pa)).2.1 ⟨i, hi⟩
          else 0) ∧
      (∀ i j : ℕ, ∀ hi : i < min pa.rows pa.columns, ∀ hj : j < pa.columns,
        fpEntry r (pa.rows + min pa.rows pa.columns + i) j =
          (K pa.rows pa.columns (fp_to_eigen pa)).2.2 ⟨j, hj⟩ ⟨i, hi⟩) ∧
      (∀ i j : ℕ, i < r.rows → j < r.columns →
        ((i < pa.rows ∧ min pa.rows pa.columns ≤ j) ∨
         (pa.rows ≤ i ∧ i < pa.rows + min pa.rows pa.columns ∧
           min pa.rows pa.columns ≤ j) ∨
         (pa.rows + min pa.rows pa.columns ≤ i ∧ pa.columns ≤ j)) →
        fpEntry r i j = 0) := by
  have hkC : min pa.rows pa.columns ≤
      max (max pa.rows pa.columns) (min pa.rows pa.columns) :=
    le_max_right _ _
  have hnC : pa.columns ≤
      max (max pa.rows pa.columns) (min pa.rows pa.columns) :=
    le_trans (le_max_right pa.rows pa.columns) (le_max_left _ _)
  refine ⟨_, rfl, by show pa.rows + _ + _ = _; omega, rfl, ?_, ?_, ?_, ?_⟩
  · intro i j hi hj
    rw [fpEntry_mkFP _ _ _ (by omega) (by omega)]
    unfold svdFullEntry
    rw [if_pos ⟨hi, hj⟩]
    unfold matEntryD
    rw [dif_pos ⟨hi, hj⟩]
  · intro i j hi hj
    rw [fpEntry_mkFP _ _ _ (by omega) (by omega)]
    unfold svdFullEntry
    rw [if_neg (by omega), if_pos ⟨by omega, by omega, hj⟩]
    have hmi : pa.rows + i - pa.rows = i := by omega
    rw [hmi]
    unfold vecEntryD
    rw [dif_pos hi]
  · intro i j hi hj
    rw [fpEntry_mkFP _ _ _ (by omega) (by omega)]
    unfold svdFullEntry
    rw [if_neg (by omega), if_neg (by omega),
      if_pos ⟨by omega, by omega, hj⟩]
    have hmi : pa.rows + min pa.rows pa.columns + i -
        (pa.rows + min pa.rows pa.columns) = i := by omega
    rw [hmi]
    unfold matEntryD
    rw [dif_pos ⟨hi, hj⟩]
    rfl
  · intro i j hi hj hcase
    have hi' : i < pa.rows + min pa.rows pa.columns + min pa.rows pa.columns :=
      hi
    have hj' : j < max (max pa.rows pa.columns) (min pa.rows pa.columns) :=
      hj
    rw [fpEntry_mkFP _ _ _ hi' hj']
    unfold svdFullEntry
    rcases hcase with ⟨h1, h2⟩ | ⟨h1, h2, h3⟩ | ⟨h1, h2⟩ <;>
      rw [if_neg (by omega), if_neg (by omega), if_neg (by omega)]

/-- C6 witness: instantiated with a concrete kernel on the concrete
1 × 2 input [1, 2]; the stacked result has shape 3 × 2. -/
theorem svd_full_spec_witness :
    ∃ r, xll_matrix_svd_full (fun _ _ _ => (0, fun _ => 0, 0))
        ⟨1, 2, [1, 2]⟩ = some r ∧ r.rows = 3 ∧ r.columns = 2 := by
  obtain ⟨r, h1, h2, h3, _⟩ :=
    svd_full_spec (fun _ _ _ => (0, fun _ => 0, 0)) ⟨1, 2, [1, 2]⟩
  exact ⟨r, h1, by rw [h2]; rfl, by rw [h3]; rfl⟩

theorem pinvInvertedSV_eq_amended {k : ℕ} (tol : ℚ) (s : Fin k → ℚ) :
    pinvInvertedSV tol s = pinvInvertedSVAmended tol s := by
  funext i
  unfold pinvInvertedSV pinvInvertedSVAmended
  by_cases h : tol < s i
  · rw [if_pos h, if_neg (not_le.mpr h)]
  · rw [if_neg h, if_pos (not_lt.mp h)]

/-- C5 amended: for every input of any shape and every possible SVD
kernel output, the pseudoinverse succeeds and returns `V · Σ⁺ · Uᵗ`,
where a singular value at or below the tolerance
`ε · max(rows, cols) · max |σ|` is inverted to zero and every singular
value strictly above the tolerance is replaced by its reciprocal. -/
theorem pinv_spec_amended (K : SVDKernel) (pa : FP12) :
    xll_matrix_pinv K pa =
      some (eigen_to_fp
        ((K pa.rows pa.columns (fp_to_eigen pa)).2.2 *
          Matrix.diagonal (pinvInvertedSVAmended
            (pinvTolerance pa.rows pa.columns
              (K pa.rows pa.columns (fp_to_eigen pa)).2.1)
            (K pa.rows pa.columns (fp_to_eigen pa)).2.1) *
          (K pa.rows pa.columns (fp_to_eigen pa)).1.transpose)) := by
  simp only [xll_matrix_pinv]
  rw [pinvInvertedSV_eq_amended]

theorem identLike_mul_mul {n m k : ℕ}
    (V : Matrix (Fin n) (Fin k) ℚ) (U : Matrix (Fin m) (Fin k) ℚ)
    (hV : ∀ i j, V i j = if (i : ℕ) = (j : ℕ) then 1 else 0)
    (hU : ∀ i j, U i j = if (i : ℕ) = (j : ℕ) then 1 else 0)
    (d : Fin k → ℚ) (i : Fin n) (j : Fin m)
    (hi : (i : ℕ) < k) (hj : (j : ℕ) < k) :
    (V * Matrix.diagonal d * U.transpose) i j =
      if (i : ℕ) = (j : ℕ) then d ⟨(i : ℕ), hi⟩ else 0 := by
  rw [Matrix.mul_apply]
  have hterm : ∀ b : Fin k,
      (V * Matrix.diagonal d) i b * U.transpose b j =
        (if (i : ℕ) = (b : ℕ) then 1 else 0) * d b *
          (if (j : ℕ) = (b : ℕ) then (1 : ℚ) else 0) := by
    intro b
    rw [Matrix.mul_diagonal, Matrix.transpose_apply, hV, hU]
  rw [Finset.sum_congr rfl (fun b _ => hterm b)]
  have h0 : ∀ b : Fin k, b ∈ Finset.univ → b ≠ ⟨(i : ℕ), hi⟩ →
      (if (i : ℕ) = (b : ℕ) then 1 else 0) * d b *
        (if (j : ℕ) = (b : ℕ) then (1 : ℚ) else 0) = 0 := by
    intro b _ hb
    rw [if_neg (fun hc => hb (Fin.ext hc.symm))]
    ring
  have h1 : (⟨(i : ℕ), hi⟩ : Fin k) ∉ Finset.univ →
      (if (i : ℕ) = ((⟨(i : ℕ), hi⟩ : Fin k) : ℕ) then 1 else 0) *
        d ⟨(i : ℕ), hi⟩ *
        (if (j : ℕ) = ((⟨(i : ℕ), hi⟩ : Fin k) : ℕ) then (1 : ℚ) else 0) = 0 :=
    fun hc => absurd (Finset.mem_univ _) hc
  rw [Finset.sum_eq_single _ h0 h1]
  by_cases hij : (i : ℕ) = (j : ℕ)
  · simp [hij]
  · simp [hij, Ne.symm hij]

/-- C5 counterexample: on the input diag(1, 2⁻⁵¹), with the kernel
output that the true SVD produces there (U = V = I, σ = (1, 2⁻⁵¹)),
the second singular value equals the tolerance 2⁻⁵² · 2 · 1 exactly.
The code inverts it to zero, while the claim's rule ("below the
tolerance → zero, every other → reciprocal") demands its reciprocal
2⁵¹, so the returned matrix is not the claimed one. -/
theorem pinv_threshold_cex :
    xll_matrix_pinv svdKernelDiag pinvCexInput ≠
      some (eigen_to_fp
        ((svdKernelDiag pinvCexInput.rows pinvCexInput.columns
            (fp_to_eigen pinvCexInput)).2.2 *
          Matrix.diagonal (pinvInvertedSVClaim
            (pinvTolerance pinvCexInput.rows pinvCexInput.columns
              (svdKernelDiag pinvCexInput.rows pinvCexInput.columns
                (fp_to_eigen pinvCexInput)).2.1)
            (svdKernelDiag pinvCexInput.rows pinvCexInput.columns
              (fp_to_eigen pinvCexInput)).2.1) *
          (svdKernelDiag pinvCexInput.rows pinvCexInput.columns
            (fp_to_eigen pinvCexInput)).1.transpose)) := by
  intro heq
  simp only [xll_matrix_pinv] at heq
  have heq2 := Option.some.inj heq
  have h11 := congrArg (fun z => fpEntry z 1 1) heq2
  simp only at h11
  rw [fpEntry_eigen_to_fp _ (by decide) (by decide),
    fpEntry_eigen_to_fp _ (by decide) (by decide)] at h11
  have hV : ∀ i j, (svdKernelDiag pinvCexInput.rows pinvCexInput.columns
      (fp_to_eigen pinvCexInput)).2.2 i j =
      if (i : ℕ) = (j : ℕ) then 1 else 0 := fun i j => rfl
  have hU : ∀ i j, (svdKernelDiag pinvCexInput.rows pinvCexInput.columns
      (fp_to_eigen pinvCexInput)).1 i j =
      if (i : ℕ) = (j : ℕ) then 1 else 0 := fun i j => rfl
  rw [identLike_mul_mul _ _ hV hU _ _ _ (by decide) (by decide),
    identLike_mul_mul _ _ hV hU _ _ _ (by decide) (by decide)] at h11
  simp only [if_pos rfl, if_true] at h11
  have hs : ∀ p, (svdKernelDiag pinvCexInput.rows pinvCexInput.columns
      (fp_to_eigen pinvCexInput)).2.1 ⟨1, p⟩ = 1 / 2 ^ 51 := fun p => rfl
  have hmaxAbs : maxAbs (svdKernelDiag pinvCexInput.rows
      pinvCexInput.columns (fp_to_eigen pinvCexInput)).2.1 =
      max |(1 : ℚ)| (max |1 / 2 ^ 51| 0) := rfl
  have hcast : max ((pinvCexInput.rows : ℕ) : ℚ)
      ((pinvCexInput.columns : ℕ) : ℚ) = 2 := by
    show max ((2 : ℕ) : ℚ) ((2 : ℕ) : ℚ) = 2
    rw [max_self]
    norm_num
  have htol : pinvTolerance pinvCexInput.rows pinvCexInput.columns
      (svdKernelDiag pinvCexInput.rows pinvCexInput.columns
        (fp_to_eigen pinvCexInput)).2.1 = 1 / 2 ^ 51 := by
    unfold pinvTolerance machineEps
    rw [hmaxAbs, hcast]
    rw [abs_of_pos (by norm_num : (0 : ℚ) < 1 / 2 ^ 51), abs_one]
    rw [max_eq_left (by norm_num : (0 : ℚ) ≤ 1 / 2 ^ 51)]
    rw [max_eq_left (by norm_num : (1 / 2 ^ 51 : ℚ) ≤ 1)]
    norm_num
  unfold pinvInvertedSVClaim pinvInvertedSV at h11
  rw [hs, htol] at h11
  norm_num at h11
